import Mathlib

/-!
Shallow embedding of the Markdown transformation engine of `md.go`
(package `mono`): the generic paired-tag scanner (`MarkdownGenericTag.Next`),
the link scanner (`MarkdownTagLink.Next`), the pass orchestrator
(`markdownApplyTags`), the paragraph synthesizer (`markdownApplyParagraphs`),
the renderer, and the top-level `Markdown` function.

Modelling conventions:
* Go strings are modelled as `List Char`; all index bookkeeping is in UTF-8
  bytes, matching Go's `for index, rn := range data` (byte index of each rune)
  and `len(data)` (byte length).
* Go `int` values that flow into actions (`Index`, `SkipRange`) are `Int`.
  Array reads/writes are total: an out-of-bounds read yields the zero value
  and an out-of-bounds write is dropped (Go would panic there; no claim
  exercises such an input).
* The scanner catalog `MarkdownTags` is a package-level Go variable whose
  stateful scanner instances persist between calls of `Markdown`; the model
  makes that explicit by threading the list of tag states through
  `markdownRunL`.  `Markdown` itself denotes a call with the initial
  (process-start) catalog state.
* `html/template` execution is modelled for the two fixed templates of the
  catalog: both templates splice `template.HTML` values verbatim, so
  execution is literal emission; a link schema containing a template
  directive (two consecutive open braces) is conservatively modelled as a
  parse error.
-/

/-- Byte length of a character list, matching Go `len(string)`. -/
def byteLen : List Char → Nat
  | [] => 0
  | c :: cs => c.utf8Size + byteLen cs

/-- Pairs each character with its byte offset starting at `i`,
matching Go `for index, rn := range data` started at offset `i`. -/
def enumBytesFrom : Nat → List Char → List (Nat × Char)
  | _, [] => []
  | i, c :: cs => (i, c) :: enumBytesFrom (i + c.utf8Size) cs

/-- Pairs each character with its byte offset, matching Go range-over-string. -/
def enumBytes (l : List Char) : List (Nat × Char) := enumBytesFrom 0 l

/-- Characters of `l` whose byte span lies inside `[a, b)`: the model of the
Go byte-slice `data[a:b]` (a slice boundary inside a multi-byte rune drops
that rune; boundaries used by the code always fall on rune boundaries). -/
def byteSliceFrom : Nat → List Char → Nat → Nat → List Char
  | _, [], _, _ => []
  | off, c :: cs, a, b =>
    (if a ≤ off ∧ off + c.utf8Size ≤ b then [c] else []) ++
      byteSliceFrom (off + c.utf8Size) cs a b

/-- Go byte-slice `data[a:b]` with natural bounds. -/
def byteSliceN (l : List Char) (a b : Nat) : List Char := byteSliceFrom 0 l a b

/-- Go byte-slice with `int` bounds (negative bounds yield nothing). -/
def byteSliceI (l : List Char) (a b : Int) : List Char :=
  if a < 0 ∨ b < 0 then [] else byteSliceN l a.toNat b.toNat

/-- Drops the first `n` bytes of a character list, as Go string slicing
`s[n:]` does; `none` when `n` falls inside a multi-byte rune (the resulting
Go string would be invalid UTF-8 and can never equal an ASCII trigger). -/
def dropBytesOpt : List Char → Nat → Option (List Char)
  | l, 0 => some l
  | [], _ + 1 => none
  | c :: cs, n + 1 =>
    if c.utf8Size ≤ n + 1 then dropBytesOpt cs (n + 1 - c.utf8Size) else none

/-- List update at a natural index; out of bounds is a no-op. -/
def setN : List α → Nat → α → List α
  | [], _, _ => []
  | _ :: xs, 0, a => a :: xs
  | x :: xs, n + 1, a => x :: setN xs n a

/-- List update at an `Int` index; negative or out of bounds is a no-op
(Go panics there; unreachable for the inputs considered). -/
def setI (l : List α) (i : Int) (a : α) : List α :=
  if i < 0 then l else setN l i.toNat a

/-- List read at an `Int` index with default. -/
def getI (l : List α) (i : Int) (d : α) : α :=
  if i < 0 then d else l.getD i.toNat d

/-- Go `unicode.IsSpace`: the Unicode white-space runes. -/
def goIsSpace (c : Char) : Bool :=
  (c.toNat == 32) || (c.toNat == 9) || (c.toNat == 10) || (c.toNat == 11) ||
  (c.toNat == 12) || (c.toNat == 13) || (c.toNat == 133) || (c.toNat == 160) ||
  (c.toNat == 5760) || (decide (8192 ≤ c.toNat) && decide (c.toNat ≤ 8202)) ||
  (c.toNat == 8232) || (c.toNat == 8233) || (c.toNat == 8239) ||
  (c.toNat == 8287) || (c.toNat == 12288)

/-- Go `strings.TrimSpace`. -/
def trimSpace (l : List Char) : List Char :=
  ((l.dropWhile goIsSpace).reverse.dropWhile goIsSpace).reverse

/-- Go `strings.Cut(s, pat)` restricted to the two components used by the
link parser: the part before the first occurrence of `pat` and the part
after it (empty when `pat` does not occur). -/
def cutList (pat : List Char) : List Char → List Char × List Char
  | [] => ([], [])
  | c :: cs =>
    if pat.isPrefixOf (c :: cs) then ([], (c :: cs).drop pat.length)
    else
      let r := cutList pat cs
      (c :: r.1, r.2)

/-- The open-brace character, written by code point to keep it out of
string literals. -/
def braceOpen : Char := Char.ofNat 123

/-- Whether a schema contains a template directive (two consecutive open
braces), in which case `template.Parse`/`Execute` is modelled as failing. -/
def hasTemplDirective : List Char → Bool
  | [] => false
  | [_] => false
  | c1 :: c2 :: rest =>
    if c1 = braceOpen ∧ c2 = braceOpen then true else hasTemplDirective (c2 :: rest)

/-- The two template-valued transformations occurring in the catalog
`MarkdownTags`: the Go-fenced-code template and the link template. -/
inductive Transf
  | codeGo
  | link
deriving DecidableEq, Repr

/-- Literal prefix of the Go-code template of the catalog. -/
def codeGoPre : String :=
  "<div class=\"bg-muted relative rounded mt-5 first:mt-0\"><pre class=\"font-mono text-sm p-[0.5rem]\"><code>"

/-- Literal suffix of the Go-code template of the catalog. -/
def codeGoPost : String := "</code></pre></div>"

/-- Literal prefix of the anchor schema built by the default link parser. -/
def linkPre : String :=
  "<a class=\"font-medium text-primary underline underline-offset-4\" href=\""

/-- Executing a catalog transformation on the captured substring:
`codeGo` trims `data[5:len-3]` and wraps it in the fixed shell
(`transform` in the `code_go` template); `link` cuts `data[1:len-1]` at the
first `](` and splices hint and target into the anchor schema
(`MarkdownTagLink.Parser`), which is then parsed and executed as a template. -/
def applyTransf : Transf → List Char → Except String (List Char)
  | .codeGo, data =>
    .ok (codeGoPre.toList ++ trimSpace (byteSliceN data 5 (byteLen data - 3)) ++
      codeGoPost.toList)
  | .link, data =>
    let inner := byteSliceN data 1 (byteLen data - 1)
    let r := cutList "](".toList inner
    let schema := linkPre.toList ++ r.2 ++ "\">".toList ++ r.1 ++ "</a>".toList
    if hasTemplDirective schema then .error "template: parse error" else .ok schema

/-- Go struct `MarkdownTagAction`. -/
structure MarkdownTagAction where
  Index : Int := 0
  Insertion : String := ""
  Transformation : Option Transf := none
  SkipRange : List Int := []
  IsNewBlock : Bool := false
deriving DecidableEq, Repr

/-- Go struct `MarkdownGenericTag`: configuration plus scanner-local state. -/
structure GenericTagState where
  Triggers : List (List Char) := []
  TriggersClosing : List (List Char) := []
  OnNewline : Bool := false
  DisableSkip : Bool := false
  Transformation : Option Transf := none
  Insertion : List String := []
  Window : List Char := []
  windowSize : Nat := 0
  opened : Bool := false
  openedWith : List Char := []
  openedIndex : Int := 0
  skip : Bool := false
  oldline : Bool := false
deriving DecidableEq, Repr

/-- Lazily defaulted closing triggers (`if len(TriggersClosing) == 0`). -/
def gLazyClosing (g : GenericTagState) : List (List Char) :=
  if g.TriggersClosing = [] then g.Triggers else g.TriggersClosing

/-- Lazily computed window size
(`max(len(Triggers[0]), len(TriggersClosing[0]))`, byte lengths). -/
def gLazyWindowSize (g : GenericTagState) : Nat :=
  if g.windowSize = 0 then
    max (byteLen (g.Triggers.headD [])) (byteLen ((gLazyClosing g).headD []))
  else g.windowSize

/-- The trailing window after consuming `rn`: append, then drop the head if
the window exceeds the window size. -/
def gWindowNext (g : GenericTagState) (rn : Char) : List Char :=
  let w0 := g.Window ++ [rn]
  if gLazyWindowSize g < w0.length then w0.drop 1 else w0

/-- The smaller window
`window[min(windowSize-len(TriggersClosing[0]), len(Window)):]`
(byte slicing of the window string; `windowSize ≥ len(TriggersClosing[0])`
always holds for states arising from the catalog, so the natural
subtraction is exact). -/
def gSmallerWindow (g : GenericTagState) (rn : Char) : Option (List Char) :=
  let w := gWindowNext g rn
  dropBytesOpt w
    (min (gLazyWindowSize g - byteLen ((gLazyClosing g).headD [])) w.length)

/-- Whether the smaller window matches a closing trigger
(`slices.Contains(tag.TriggersClosing, smallerWindow)`); a mid-rune slice
(`none`) matches no trigger. -/
def swInClosing (swOpt : Option (List Char)) (tc : List (List Char)) : Bool :=
  match swOpt with
  | some sw => decide (sw ∈ tc)
  | none => false

/-- The `oldline` flag after consuming `rn` (the two deferred updates in
`MarkdownGenericTag.Next`). -/
def gOldlineNext (g : GenericTagState) (rn : Char) : Bool :=
  if rn = '\n' then false else if goIsSpace rn then true else g.oldline

/-- Go `MarkdownGenericTag.Next`: one character step of the generic
paired-tag scanner; returns the updated scanner state and the emitted
actions. -/
def genericNext (g : GenericTagState) (index : Int) (rn : Char) :
    GenericTagState × List MarkdownTagAction :=
  let tc := gLazyClosing g
  let ws := gLazyWindowSize g
  let w := gWindowNext g rn
  let swOpt := gSmallerWindow g rn
  let base : GenericTagState :=
    { g with TriggersClosing := tc, windowSize := ws, Window := w,
             oldline := gOldlineNext g rn }
  if g.skip then ({ base with skip := false }, [])
  else if g.DisableSkip = false ∧ rn = '\\' then ({ base with skip := true }, [])
  else if g.opened = false ∧ w ∈ g.Triggers ∧
      (g.OnNewline = false ∨ g.oldline = false) then
    ({ base with opened := true, openedWith := w,
                 openedIndex := index + 1 - (byteLen w : Int) }, [])
  else if g.opened = true ∧ swInClosing swOpt tc = true ∧
      (g.Triggers.length = 1 ∨ g.openedWith = w) then
    match g.Transformation with
    | some tr =>
      ({ base with opened := false },
       [{ Index := 0, Insertion := "", Transformation := some tr,
          SkipRange := [g.openedIndex, index + 1], IsNewBlock := g.OnNewline }])
    | none =>
      ({ base with opened := false },
       [{ Index := g.openedIndex, Insertion := g.Insertion.headD "",
          Transformation := none,
          SkipRange := [g.openedIndex, g.openedIndex + (byteLen g.openedWith : Int)],
          IsNewBlock := g.OnNewline },
        { Index := index, Insertion := (g.Insertion.drop 1).headD "",
          Transformation := none,
          SkipRange := [index + 1 - (byteLen (swOpt.getD []) : Int), index + 1],
          IsNewBlock := g.OnNewline }])
  else (base, [])

/-- Go struct `MarkdownTagLink` state (the lazily initialized `Parser` and
`template` fields are pure and folded into `applyTransf .link`). -/
structure LinkTagState where
  skip : Bool := false
  openHint : Bool := false
  openLink : Bool := false
  openIndex : Int := 0
  w0 : Char := Char.ofNat 0
  w1 : Char := Char.ofNat 0
deriving DecidableEq, Repr

/-- Go `MarkdownTagLink.Next`: one character step of the link scanner. -/
def linkNext (t : LinkTagState) (index : Int) (rn : Char) :
    LinkTagState × List MarkdownTagAction :=
  let b : LinkTagState := { t with w0 := t.w1, w1 := rn }
  if t.openLink ∧ rn = ')' then
    ({ b with openLink := false },
     [{ Index := t.openIndex, Insertion := "", Transformation := some .link,
        SkipRange := [t.openIndex, index + 1], IsNewBlock := false }])
  else if t.openLink then (b, [])
  else if t.skip then ({ b with skip := false }, [])
  else if rn = '\\' then ({ b with skip := true }, [])
  else if t.openHint ∧ b.w0 = ']' ∧ b.w1 = '(' then
    ({ b with openHint := false, openLink := true }, [])
  else if t.openHint ∧ b.w0 = ']' then ({ b with openHint := false }, [])
  else if t.openHint then (b, [])
  else if rn = '[' then ({ b with openHint := true, openIndex := index }, [])
  else (b, [])

/-- A catalog entry: either a generic paired tag or the link tag
(the two implementations of the Go interface `MarkdownTag`). -/
inductive TagState
  | generic (g : GenericTagState)
  | tlink (t : LinkTagState)
deriving DecidableEq, Repr

/-- Dispatch of `MarkdownTag.Next`. -/
def TagState.next : TagState → Int → Char → TagState × List MarkdownTagAction
  | .generic g, i, c =>
    let r := genericNext g i c
    (.generic r.1, r.2)
  | .tlink t, i, c =>
    let r := linkNext t i c
    (.tlink r.1, r.2)

/-- The backtick character, written by code point. -/
def btick : Char := Char.ofNat 96

/-- Catalog entry 1: the Go-fenced-code tag (with transformation). -/
def tagCodeGo : GenericTagState :=
  { Triggers := [[btick, btick, btick, 'g', 'o']], OnNewline := true,
    TriggersClosing := [['\n', btick, btick, btick]],
    Transformation := some .codeGo }

/-- Catalog entry 2: the plain fenced-code tag. -/
def tagFence : GenericTagState :=
  { Triggers := [[btick, btick, btick]], OnNewline := true,
    Insertion := ["<pre><code class=\"bg-muted relative rounded px-[0.3rem] py-[0.2rem] font-mono\">", "</code></pre>"] }

/-- Catalog entry 3: the inline-code tag. -/
def tagInlineCode : GenericTagState :=
  { Triggers := [[btick]],
    Insertion := ["<code class=\"bg-muted relative rounded px-[0.3rem] py-[0.2rem] font-mono text-sm font-semibold\">", "</code>"] }

/-- Catalog entry 4: the level-4 heading tag. -/
def tagH4 : GenericTagState :=
  { Triggers := [['#', '#', '#', '#', ' ']], OnNewline := true,
    TriggersClosing := [['\n']],
    Insertion := ["<h4 class=\"scroll-m-20 text-xl font-semibold tracking-tight\">", "</h2>\n"],
    Window := ['\n'] }

/-- Catalog entry 5: the level-3 heading tag. -/
def tagH3 : GenericTagState :=
  { Triggers := [['#', '#', '#', ' ']], OnNewline := true,
    TriggersClosing := [['\n']],
    Insertion := ["<h3 class=\"scroll-m-20 text-2xl font-semibold tracking-tight\">", "</h2>\n"],
    Window := ['\n'] }

/-- Catalog entry 6: the level-2 heading tag. -/
def tagH2 : GenericTagState :=
  { Triggers := [['#', '#', ' ']], OnNewline := true,
    TriggersClosing := [['\n']],
    Insertion := ["<h2 class=\"scroll-m-20 border-b pb-2 text-3xl font-semibold tracking-tight first:mt-0\">", "</h2>\n"],
    Window := ['\n'] }

/-- Catalog entry 7: the level-1 heading tag. -/
def tagH1 : GenericTagState :=
  { Triggers := [['#', ' ']], OnNewline := true,
    TriggersClosing := [['\n']],
    Insertion := ["<h1 class=\"scroll-m-20 text-center text-4xl font-extrabold tracking-tight text-balance\">", "</h1>\n"],
    Window := ['\n'] }

/-- Catalog entry 8: the blockquote tag. -/
def tagQuote : GenericTagState :=
  { Triggers := [['>', ' ']], OnNewline := true,
    TriggersClosing := [['\n']],
    Insertion := ["<blockquote class=\"mt-5 border-l-2 pl-2 italic\">", "</blockquote>\n"],
    Window := ['\n'] }

/-- Catalog entry 10: the bold-italic tag. -/
def tagBoldItalic : GenericTagState :=
  { Triggers := [['*', '*', '*'], ['_', '_', '_']],
    Insertion := ["<b><i>", "</i></b>"] }

/-- Catalog entry 11: the bold tag. -/
def tagBold : GenericTagState :=
  { Triggers := [['*', '*'], ['_', '_']],
    Insertion := ["<b>", "</b>"] }

/-- Catalog entry 12: the italic tag. -/
def tagItalic : GenericTagState :=
  { Triggers := [['*'], ['_']],
    Insertion := ["<i>", "</i>"] }

/-- The `MarkdownTags` catalog of `md.go` in order, at its initial
(package-initialization) state; entry 9 is the link tag. -/
def initTags : List TagState :=
  [ .generic tagCodeGo, .generic tagFence, .generic tagInlineCode,
    .generic tagH4, .generic tagH3, .generic tagH2, .generic tagH1,
    .generic tagQuote, .tlink {}, .generic tagBoldItalic, .generic tagBold,
    .generic tagItalic ]

/-- Go `MarkdownTagParagraph[0]`. -/
def paragraphOpenText : String := "<p class=\"leading-5 [&:not(:first-child)]:mt-5\">"

/-- Go `MarkdownTagParagraph[1]`. -/
def paragraphCloseText : String := "</p>"

/-- The mutable per-call state of the orchestrator: the skip bitmap, the
per-byte-index action queues, and the block (paragraph) bitmap. -/
structure PassState where
  skip : List Bool
  actions : List (List MarkdownTagAction)
  paragraphs : List Bool
deriving DecidableEq, Repr

/-- Sets `n` consecutive entries of a boolean list to `true` starting at
`Int` index `i` (the Go loop `for i := r0; i < r1 ... skip[i] = true`). -/
def markRange (l : List Bool) (i : Int) : Nat → List Bool
  | 0 => l
  | n + 1 => markRange (setI l i true) (i + 1) n

/-- Go `math.MaxInt` (64-bit). -/
def goMaxInt : Int := 9223372036854775807

/-- The body of the orchestrator's per-action loop in `markdownApplyTags`:
mark the consumed range in the skip bitmap, extend the paragraph-range
accumulator, and either queue the action at its anchor index or resolve its
transformation eagerly on the captured substring and queue the rendered
result as a plain insertion at `SkipRange[0]`. -/
def processAction (data : List Char) (st : PassState) (acc : Int × Int × Bool)
    (a : MarkdownTagAction) : Except String (PassState × (Int × Int × Bool)) :=
  let r0 := a.SkipRange.headD 0
  let r1 := (a.SkipRange.drop 1).headD 0
  let st1 : PassState :=
    if 1 < a.SkipRange.length then
      { st with skip := markRange st.skip r0 (r1 - r0).toNat } else st
  let fr1 := if 1 < a.SkipRange.length then min acc.1 r0 else acc.1
  let to1 := if 1 < a.SkipRange.length then max acc.2.1 r1 else acc.2.1
  let inb1 := acc.2.2 || a.IsNewBlock
  match a.Transformation with
  | none =>
    .ok ({ st1 with
           actions := setI st1.actions a.Index (getI st1.actions a.Index [] ++ [a]) },
         (fr1, to1, inb1))
  | some tr =>
    match applyTransf tr (byteSliceI data r0 r1) with
    | .error e => .error e
    | .ok s =>
      .ok ({ st1 with
             actions := setI st1.actions r0
               (getI st1.actions a.Index [] ++
                [{ Index := r0, Insertion := String.mk s, Transformation := none,
                   SkipRange := [], IsNewBlock := false }]) },
           (fr1, to1, inb1))

/-- Sequential processing of the actions returned by one scanner
invocation. -/
def processActs (data : List Char) (st : PassState) (acc : Int × Int × Bool) :
    List MarkdownTagAction → Except String (PassState × (Int × Int × Bool))
  | [] => .ok (st, acc)
  | a :: rest =>
    match processAction data st acc a with
    | .error e => .error e
    | .ok r => processActs data r.1 r.2 rest

/-- One scanner's full pass over the document in `markdownApplyTags`:
indices already marked in the skip bitmap are skipped without invoking the
scanner; after each invocation the returned actions are processed and, for
newline-based actions, the consumed extent is marked in the paragraph
bitmap. -/
def passOne (data : List Char) :
    TagState → PassState → List (Nat × Char) → TagState × Except String PassState
  | t, st, [] => (t, .ok st)
  | t, st, (i, c) :: rest =>
    if st.skip.getD i false = true then passOne data t st rest
    else
      let r := t.next (Int.ofNat i) c
      match processActs data st (goMaxInt, 0, false) r.2 with
      | .error e => (r.1, .error e)
      | .ok (st', fr, to_, inb) =>
        let st'' :=
          if inb = true ∧ fr < to_ then
            { st' with paragraphs := markRange st'.paragraphs fr (to_ - fr).toNat }
          else st'
        passOne data r.1 st'' rest

/-- Go `markdownApplyTags`: every scanner fully traverses the document in
catalog order; scanner states are threaded (they are fields of the shared
catalog instances in Go).  An error aborts the remaining traversal. -/
def applyTagsGo (data : List Char) :
    List TagState → PassState → List TagState × Except String PassState
  | [], st => ([], .ok st)
  | t :: ts, st =>
    match passOne data t st (enumBytes data) with
    | (t', .error e) => (t' :: ts, .error e)
    | (t', .ok st') =>
      let r := applyTagsGo data ts st'
      (t' :: r.1, r.2)

/-- The paragraph-open action queued by `markdownApplyParagraphs`. -/
def pOpenAct (i : Int) : MarkdownTagAction :=
  { Index := i, Insertion := paragraphOpenText }

/-- The paragraph-close action queued by `markdownApplyParagraphs`. -/
def pCloseAct (i : Int) : MarkdownTagAction :=
  { Index := i, Insertion := paragraphCloseText }

/-- The inner loop of `markdownApplyParagraphs`: advance `to` until a
paragraph-bitmap mark or a blank line (`data[to-1:to+1] == "\n\n"`),
marking `paragraphs[to-1]` along the way.  The fuel is an upper bound on
the iteration count; callers pass `byteLen data + 1` which always
suffices. -/
def paraInner (data : List Char) : Nat → List Bool → Nat → List Bool × Nat
  | 0, paras, to_ => (paras, to_)
  | fuel + 1, paras, to_ =>
    if to_ < byteLen data then
      if paras.getD to_ false = true ∨ byteSliceN data (to_ - 1) (to_ + 1) = ['\n', '\n'] then
        (paras, to_)
      else paraInner data fuel (setN paras (to_ - 1) true) (to_ + 1)
    else (paras, to_)

/-- The outer loop of `markdownApplyParagraphs`: for each maximal non-block
run, prepend a paragraph-open action at its start and append a
paragraph-close action at its end (runs that trim to whitespace are
skipped).  The fuel bounds the number of outer iterations; `from` strictly
increases each iteration, so `byteLen data + 1` always suffices. -/
def paraOuter (data : List Char) :
    Nat → List (List MarkdownTagAction) → List Bool → Nat → List (List MarkdownTagAction)
  | 0, acts, _, _ => acts
  | fuel + 1, acts, paras, fr =>
    if fr < byteLen data then
      if paras.getD fr false = true then paraOuter data fuel acts paras (fr + 1)
      else
        let pr := paraInner data (byteLen data + 1) paras (fr + 1)
        let to_ := pr.2 - 1
        if trimSpace (byteSliceN data fr to_) = [] then
          paraOuter data fuel acts pr.1 (to_ + 1)
        else
          let acts1 := setN acts fr ([pOpenAct (Int.ofNat fr)] ++ acts.getD fr [])
          let acts2 := setN acts1 to_ (acts1.getD to_ [] ++ [pCloseAct (Int.ofNat to_)])
          paraOuter data fuel acts2 pr.1 (to_ + 1)
    else acts

/-- Go `markdownApplyParagraphs` (returns the updated action queues). -/
def markdownApplyParagraphs (acts : List (List MarkdownTagAction))
    (paras : List Bool) (data : List Char) : List (List MarkdownTagAction) :=
  paraOuter data (byteLen data + 1) acts paras 0

/-- Stable insertion, placing `a` before the first element whose `Index` is
not larger: together with `sortActionsStable` this realizes
`slices.SortStableFunc(actions[i], -cmp.Compare(a.Index, b.Index))`
(stable, descending by `Index`). -/
def insertDesc (a : MarkdownTagAction) :
    List MarkdownTagAction → List MarkdownTagAction
  | [] => [a]
  | b :: bs => if b.Index ≤ a.Index then a :: b :: bs else b :: insertDesc a bs

/-- Stable sort of an action queue by descending `Index`. -/
def sortActionsStable (l : List MarkdownTagAction) : List MarkdownTagAction :=
  l.foldr insertDesc []

/-- The insertions emitted at byte index `i` during rendering, in emission
order. -/
def emitAt (actions : List (List MarkdownTagAction)) (i : Nat) : List Char :=
  (sortActionsStable (actions.getD i [])).foldl
    (fun acc a => acc ++ a.Insertion.toList) []

/-- The render loop of `Markdown`: at each rune, emit the queued insertions
(stably sorted by descending anchor index) and then the rune itself unless
its index is marked skipped. -/
def renderList (data : List Char) (actions : List (List MarkdownTagAction))
    (skip : List Bool) : List Char :=
  (enumBytes data).foldl
    (fun acc p =>
      acc ++ emitAt actions p.1 ++ (if skip.getD p.1 false = true then [] else [p.2]))
    []

/-- Go `Markdown` with the catalog state made explicit: returns the catalog
state after the call together with the result.  In Go the catalog is the
package-level `MarkdownTags`, so successive calls thread this state. -/
def markdownRunL (tags : List TagState) (data : List Char) :
    List TagState × Except String (List Char) :=
  let blen := byteLen data
  let st0 : PassState :=
    ⟨List.replicate blen false, List.replicate blen [], List.replicate blen false⟩
  match applyTagsGo data tags st0 with
  | (tags', .error e) => (tags', .error e)
  | (tags', .ok st') =>
    let acts := markdownApplyParagraphs st'.actions st'.paragraphs data
    (tags', .ok ("<div>".toList ++ renderList data acts st'.skip ++ "</div>".toList))

/-- Go `Markdown` called with the initial (process-start) catalog state. -/
def Markdown (s : String) : Except String String :=
  ((markdownRunL initTags s.toList).2).map String.mk

/-- Feeding a list of indexed characters to a generic scanner, collecting
its actions: the trace of one scanner inside `markdownApplyTags` restricted
to the characters it actually observes. -/
def scanGeneric (g : GenericTagState) :
    List (Nat × Char) → GenericTagState × List MarkdownTagAction
  | [] => (g, [])
  | (i, c) :: rest =>
    let r := genericNext g (Int.ofNat i) c
    let r2 := scanGeneric r.1 rest
    (r2.1, r.2 ++ r2.2)

/-- The `oldline` flag after feeding a sequence of characters, as updated by
the deferred assignments of `MarkdownGenericTag.Next`. -/
def oldlineAfter (b : Bool) : List Char → Bool
  | [] => b
  | c :: cs => oldlineAfter (if c = '\n' then false else if goIsSpace c then true else b) cs

/-- Whether the most recently fed whitespace character was a non-newline
whitespace (`b` when no whitespace was fed). -/
def lastWsNonNewline (b : Bool) (cs : List Char) : Bool :=
  match cs.reverse.find? goIsSpace with
  | some c => decide (c ≠ '\n')
  | none => b

/-- The action queues of a fresh `Markdown` call after the orchestration
pass and paragraph synthesis (empty on a transformation error). -/
def stageActions (s : String) : List (List MarkdownTagAction) :=
  let data := s.toList
  let blen := byteLen data
  let st0 : PassState :=
    ⟨List.replicate blen false, List.replicate blen [], List.replicate blen false⟩
  match applyTagsGo data initTags st0 with
  | (_, .ok st') => markdownApplyParagraphs st'.actions st'.paragraphs data
  | (_, .error _) => []

/-- The action queue anchored at byte index `i` for a fresh `Markdown`
call, in discovery (queueing) order. -/
def queueAt (s : String) (i : Nat) : List MarkdownTagAction :=
  (stageActions s).getD i []

/-- The insertion texts the renderer emits at byte index `i`, in emission
order (the stable descending-`Index` sort of the queue). -/
def emittedInsertionsAt (s : String) (i : Nat) : List String :=
  (sortActionsStable (queueAt s i)).map MarkdownTagAction.Insertion

/-- Characters the configuration triggers are built from: any opening
trigger of the catalog contains one of these, and the link scanner only
acts after a `[`. -/
def badChar (c : Char) : Prop :=
  c = '*' ∨ c = '_' ∨ c = btick ∨ c = '#' ∨ c = '>' ∨ c = '['

instance (c : Char) : Decidable (badChar c) := by
  unfold badChar; infer_instance

/-- Every opening trigger of the scanner contains a marker character. -/
def cleanCfg (g : GenericTagState) : Prop :=
  ∀ t ∈ g.Triggers, ∃ c ∈ t, badChar c

/-- The scanner is idle and its window holds no marker character. -/
def cleanSt (g : GenericTagState) : Prop :=
  g.opened = false ∧ ∀ c ∈ g.Window, ¬ badChar c

/-- A catalog entry that has not begun recognizing any construct. -/
def tagClean : TagState → Prop
  | .generic g => cleanCfg g ∧ cleanSt g
  | .tlink t => t.openHint = false ∧ t.openLink = false

instance (t : TagState) : Decidable (tagClean t) := by
  cases t <;> (unfold tagClean cleanCfg cleanSt; infer_instance)

/-- Sets `n` consecutive entries to `true` starting at natural index `a`
(the cumulative effect of the paragraph inner loop's marks). -/
def setTrueRange (l : List Bool) (a : Nat) : Nat → List Bool
  | 0 => l
  | n + 1 => setTrueRange (setN l a true) (a + 1) n

/-- Whether `pat` occurs as a contiguous subsequence of the second list. -/
def containsSeq (pat : List Char) : List Char → Bool
  | [] => pat.isEmpty
  | c :: cs => pat.isPrefixOf (c :: cs) || containsSeq pat cs

/-- An italic scanner state that has seen an opening `*`: the state of
catalog entry 12 after consuming `*x` (used to exhibit a closing step). -/
def italicOpenedEx : GenericTagState :=
  { Triggers := [['*'], ['_']], TriggersClosing := [['*'], ['_']],
    Insertion := ["<i>", "</i>"], Window := ['x'], windowSize := 1,
    opened := true, openedWith := ['*'], openedIndex := 0 }

/-! ### Claim theorems -/

/-- C1: the spec claims `transform` is deterministic across two successive
calls in the same process.  The code violates this: `MarkdownTags` is a
package-level catalog of stateful scanner instances that is neither
re-created nor reset per call, so the italic scanner left `opened` by the
first call `Markdown("*a")` closes at the first `*` of the second,
identical call, which therefore returns different output. -/
theorem markdown_repeat_call_not_deterministic :
    (markdownRunL initTags "*a".toList).2 =
      .ok "<div><p class=\"leading-5 [&:not(:first-child)]:mt-5\">*</p>a</div>".toList ∧
    (markdownRunL (markdownRunL initTags "*a".toList).1 "*a".toList).2 =
      .ok "<div><p class=\"leading-5 [&:not(:first-child)]:mt-5\"><i></i></p>a</div>".toList ∧
    (markdownRunL initTags "*a".toList).2 ≠
      (markdownRunL (markdownRunL initTags "*a".toList).1 "*a".toList).2 := by
  refine ⟨rfl, rfl, fun h => absurd (Except.ok.inj h) (by decide)⟩

/-- C2 counterexample: the claim states the backslashes of
`"\*not italic\*"` do not appear in the output, but `Markdown` only
suppresses the open/close transition — nothing ever claims the backslash
indices, so both backslashes are emitted verbatim. -/
theorem markdown_escape_keeps_backslashes :
    Markdown "\\*not italic\\*" =
      .ok "<div><p class=\"leading-5 [&:not(:first-child)]:mt-5\">\\*not italic\\</p>*</div>" ∧
    "<div><p class=\"leading-5 [&:not(:first-child)]:mt-5\">\\*not italic\\</p>*</div>".toList.contains '\\' = true := by
  refine ⟨rfl, by decide⟩

/-- C2 amended: the escaped asterisks trigger no open/close transition and
no italic markup is emitted, but the backslashes pass through into the
output (and the paragraph close is injected before the final character). -/
theorem markdown_escape_no_italic :
    Markdown "\\*not italic\\*" =
      .ok "<div><p class=\"leading-5 [&:not(:first-child)]:mt-5\">\\*not italic\\</p>*</div>" ∧
    containsSeq "<i>".toList "<div><p class=\"leading-5 [&:not(:first-child)]:mt-5\">\\*not italic\\</p>*</div>".toList = false := by
  refine ⟨rfl, by decide⟩

/-- C3 counterexample: for the trigger-free input `"hello"` the output is
not the input wrapped only in the block container — the paragraph
synthesizer additionally injects the paragraph wrapper pair (and its close
lands before the last character). -/
theorem markdown_not_only_block_container :
    Markdown "hello" =
      .ok "<div><p class=\"leading-5 [&:not(:first-child)]:mt-5\">hell</p>o</div>" ∧
    Markdown "hello" ≠ .ok "<div>hello</div>" := by
  refine ⟨rfl, fun h => absurd (Except.ok.inj h) (by decide)⟩

/-- C4 counterexample: the renderer does not emit the actions queued at an
index in reverse discovery order.  At index 0 of `"**_x_**"` the queue is
(in discovery order) the prepended paragraph-open followed by the bold
open, and the renderer emits them in exactly that order, not reversed. -/
theorem render_not_reverse_discovery :
    emittedInsertionsAt "**_x_**" 0 = [paragraphOpenText, "<b>"] ∧
    (queueAt "**_x_**" 0).map MarkdownTagAction.Insertion = [paragraphOpenText, "<b>"] ∧
    emittedInsertionsAt "**_x_**" 0 ≠
      ((queueAt "**_x_**" 0).reverse.map MarkdownTagAction.Insertion) := by
  refine ⟨rfl, rfl, by decide⟩

/-- C4 amended: the renderer emits same-index actions stably sorted by
descending anchor `Index` — co-anchored actions stay in discovery order,
with the paragraph-open prepended ahead and closers appended after inner
closers — and the claimed example does hold: `Markdown("**_x_**")` yields
bold wrapping italic wrapping `x`, with the shared index 6 emitting the
bold close before the paragraph close. -/
theorem render_stable_desc_order_nesting :
    Markdown "**_x_**" =
      .ok "<div><p class=\"leading-5 [&:not(:first-child)]:mt-5\"><b><i>x</i></b></p></div>" ∧
    emittedInsertionsAt "**_x_**" 6 = ["</b>", "</p>"] := by
  refine ⟨rfl, rfl⟩

/-- C5 counterexample: the heading scanner's idle-to-open transition fires
mid-line right after the non-whitespace character `b` in `"ab# c"` (no
whitespace was seen, so `oldline` is still false), and the full pipeline
on `"ab# c\n"` indeed injects heading markup mid-line. -/
theorem heading_opens_midline :
    (scanGeneric tagH1 (enumBytes "ab# c".toList)).1.opened = true ∧
    Markdown "ab# c\n" =
      .ok "<div><p class=\"leading-5 [&:not(:first-child)]:mt-5\">a</p>b<h1 class=\"scroll-m-20 text-center text-4xl font-extrabold tracking-tight text-balance\">c</h1>\n</div>" := by
  refine ⟨rfl, rfl⟩

/-- C6 counterexample: for `"ab\n\ncd"` the second text run is not wrapped
in its paragraph pair — the close tag is emitted before the final `d`, so
the output contains no paragraph-wrapped `cd`. -/
theorem paragraph_second_run_not_wrapped :
    Markdown "ab\n\ncd" =
      .ok "<div><p class=\"leading-5 [&:not(:first-child)]:mt-5\">ab</p>\n<p class=\"leading-5 [&:not(:first-child)]:mt-5\">\nc</p>d</div>" ∧
    containsSeq (paragraphOpenText.toList ++ "cd".toList ++ paragraphCloseText.toList)
      "<div><p class=\"leading-5 [&:not(:first-child)]:mt-5\">ab</p>\n<p class=\"leading-5 [&:not(:first-child)]:mt-5\">\nc</p>d</div>".toList = false := by
  refine ⟨rfl, by decide⟩

/-- C8: a generic scanner emits actions only when an open construct closes
(so an opening trigger that is never closed produces no action), and
concretely `Markdown("*no close")` leaves the italic scanner opened with no
action emitted and returns the input characters unchanged inside the block
container and paragraph wrapper, with no error. -/
theorem unterminated_trigger_no_action :
    (∀ (g : GenericTagState) (i : Int) (c : Char),
       (genericNext g i c).2 ≠ [] →
       g.opened = true ∧ (genericNext g i c).1.opened = false) ∧
    (scanGeneric tagItalic (enumBytes "*no close".toList)).1.opened = true ∧
    (scanGeneric tagItalic (enumBytes "*no close".toList)).2 = [] ∧
    Markdown "*no close" =
      .ok "<div><p class=\"leading-5 [&:not(:first-child)]:mt-5\">*no clos</p>e</div>" := by
  refine ⟨?_, rfl, rfl, rfl⟩
  intro g i c h
  simp only [genericNext] at h ⊢
  split_ifs at h ⊢ with h1 h2 h3 h4
  · exact absurd rfl h
  · exact absurd rfl h
  · exact absurd rfl h
  · refine ⟨h4.1, ?_⟩
    cases g.Transformation <;> rfl
  · exact absurd rfl h

/-- C8 witness: a concrete closing step that emits actions, taken by an
italic scanner state that was previously opened. -/
theorem unterminated_trigger_no_action_witness :
    italicOpenedEx.opened = true ∧ (genericNext italicOpenedEx 2 '*').1.opened = false :=
  unterminated_trigger_no_action.1 italicOpenedEx 2 '*' (by decide)

/-! ### Helper lemmas on list primitives -/

theorem length_setN (l : List α) (n : Nat) (a : α) : (setN l n a).length = l.length := by
  induction l generalizing n with
  | nil => rfl
  | cons x xs ih => cases n with
    | zero => rfl
    | succ m => simpa [setN] using ih m

theorem getD_setN_self (l : List α) (n : Nat) (a d : α) (h : n < l.length) :
    (setN l n a).getD n d = a := by
  induction l generalizing n with
  | nil => simp at h
  | cons x xs ih => cases n with
    | zero => rfl
    | succ m => simpa [setN, List.getD] using ih m (by simp only [List.length_cons] at h; omega)

theorem getD_setN_ne (l : List α) (n m : Nat) (a d : α) (h : m ≠ n) :
    (setN l n a).getD m d = l.getD m d := by
  induction l generalizing n m with
  | nil => rfl
  | cons x xs ih =>
    cases n with
    | zero => cases m with
      | zero => exact absurd rfl h
      | succ k => rfl
    | succ n' => cases m with
      | zero => rfl
      | succ k => simpa [setN, List.getD] using ih n' k (fun hk => h (by simp [hk]))

theorem getI_setI_self (l : List α) (i : Int) (x d : α) (h0 : 0 ≤ i)
    (hl : i.toNat < l.length) : getI (setI l i x) i d = x := by
  unfold getI setI
  rw [if_neg (by omega), if_neg (by omega)]
  exact getD_setN_self l i.toNat x d hl

theorem getI_setI_ne (l : List α) (i j : Int) (x d : α) (hne : j ≠ i) :
    getI (setI l i x) j d = getI l j d := by
  unfold getI setI
  by_cases hi : i < 0
  · rw [if_pos hi]
  · rw [if_neg hi]
    by_cases hj : j < 0
    · rw [if_pos hj, if_pos hj]
    · rw [if_neg hj, if_neg hj]
      exact getD_setN_ne l i.toNat j.toNat x d (fun hk => hne (by omega))

theorem getD_replicate_self (n m : Nat) (a : α) : (List.replicate n a).getD m a = a := by
  induction n generalizing m with
  | zero => rfl
  | succ k ih => cases m with
    | zero => rfl
    | succ m' => simp only [List.replicate, List.getD]; exact ih m'

/-! ### C7 -/

/-- C7: when a scanner action carries a transformation, the orchestrator's
per-action step resolves it synchronously — the sub-renderer runs on the
exact captured byte range `data[r0:r1]`, and the rendered text is queued as
a plain insertion action (no transformation, anchor `Index = r0`) in the
queue at the range's start index `r0` and at no other index; the skip
bitmap is marked over the range and the paragraph bitmap is untouched. -/
theorem transformation_resolved_eagerly (data : List Char) (st : PassState)
    (acc : Int × Int × Bool) (a : MarkdownTagAction) (tr : Transf) (r0 r1 : Int)
    (s : List Char) (hT : a.Transformation = some tr) (hR : a.SkipRange = [r0, r1])
    (h0 : 0 ≤ r0) (hlen : r0.toNat < st.actions.length)
    (hOk : applyTransf tr (byteSliceI data r0 r1) = .ok s) :
    ∃ st', processAction data st acc a =
        .ok (st', (min acc.1 r0, max acc.2.1 r1, acc.2.2 || a.IsNewBlock)) ∧
      st'.skip = markRange st.skip r0 (r1 - r0).toNat ∧
      st'.paragraphs = st.paragraphs ∧
      getI st'.actions r0 [] = getI st.actions a.Index [] ++
        [{ Index := r0, Insertion := String.mk s, Transformation := none,
           SkipRange := [], IsNewBlock := false }] ∧
      (∀ j : Int, j ≠ r0 → getI st'.actions j [] = getI st.actions j []) := by
  obtain ⟨aIdx, aIns, aTr, aSR, aNB⟩ := a
  change aTr = some tr at hT
  change aSR = [r0, r1] at hR
  subst hT
  subst hR
  refine ⟨⟨markRange st.skip r0 (r1 - r0).toNat,
           setI st.actions r0 (getI st.actions aIdx [] ++
             [{ Index := r0, Insertion := String.mk s, Transformation := none,
                SkipRange := [], IsNewBlock := false }]),
           st.paragraphs⟩, ?_, rfl, rfl, ?_, ?_⟩
  · simp only [processAction, List.headD_cons, List.drop_succ_cons, List.drop_zero,
      List.length_cons, List.length_nil, hOk]
    norm_num
  · exact getI_setI_self _ r0 _ [] h0 hlen
  · intro j hj
    exact getI_setI_ne _ r0 j _ [] hj

/-- C7 witness: the Go-fenced-code transformation of the capture
`"```go\nx\n```"` is resolved during the pass and queued at index 0. -/
theorem transformation_resolved_eagerly_witness :
    ∃ st', processAction "```go\nx\n```".toList
        ⟨List.replicate 11 false, List.replicate 11 [], List.replicate 11 false⟩
        (goMaxInt, 0, false)
        { Index := 0, Transformation := some .codeGo, SkipRange := [0, 11],
          IsNewBlock := true } =
        .ok (st', (min goMaxInt 0, max 0 11, false || true)) ∧
      st'.skip = markRange (List.replicate 11 false) 0 ((11 - 0 : Int)).toNat ∧
      st'.paragraphs = List.replicate 11 false ∧
      getI st'.actions 0 [] = getI (List.replicate 11 []) (0 : Int) [] ++
        [{ Index := 0,
           Insertion := String.mk (codeGoPre.toList ++ ['x'] ++ codeGoPost.toList),
           Transformation := none, SkipRange := [], IsNewBlock := false }] ∧
      (∀ j : Int, j ≠ 0 → getI st'.actions j [] = getI (List.replicate 11 []) j []) :=
  transformation_resolved_eagerly "```go\nx\n```".toList
    ⟨List.replicate 11 false, List.replicate 11 [], List.replicate 11 false⟩
    (goMaxInt, 0, false)
    { Index := 0, Transformation := some .codeGo, SkipRange := [0, 11],
      IsNewBlock := true }
    .codeGo 0 11 (codeGoPre.toList ++ ['x'] ++ codeGoPost.toList)
    rfl rfl (by decide) (by decide) rfl

/-! ### C9 -/

theorem getD_setN_true_keeps (l : List Bool) (n i : Nat)
    (h : l.getD i false = true) : (setN l n true).getD i false = true := by
  induction l generalizing n i with
  | nil => exact h
  | cons x xs ih =>
    cases n with
    | zero =>
      cases i with
      | zero => rfl
      | succ j => simpa [setN, List.getD] using h
    | succ n' =>
      cases i with
      | zero => simpa [setN, List.getD] using h
      | succ j =>
        simp only [setN, List.getD_cons_succ] at h ⊢
        exact ih n' j h

theorem getD_setI_true_keeps (l : List Bool) (a : Int) (i : Nat)
    (h : l.getD i false = true) : (setI l a true).getD i false = true := by
  unfold setI
  by_cases ha : a < 0
  · rwa [if_pos ha]
  · rw [if_neg ha]; exact getD_setN_true_keeps l a.toNat i h

theorem markRange_keeps_true (n : Nat) (l : List Bool) (a : Int) (i : Nat)
    (h : l.getD i false = true) : (markRange l a n).getD i false = true := by
  induction n generalizing l a with
  | zero => exact h
  | succ m ih => exact ih _ _ (getD_setI_true_keeps l a i h)

theorem processAction_keeps_skip {data : List Char} {st : PassState}
    {acc : Int × Int × Bool} {a : MarkdownTagAction} {st' : PassState}
    {acc' : Int × Int × Bool} (i : Nat)
    (hp : processAction data st acc a = .ok (st', acc'))
    (h : st.skip.getD i false = true) : st'.skip.getD i false = true := by
  by_cases hlen : 1 < a.SkipRange.length
  · simp only [processAction, if_pos hlen] at hp
    split at hp
    · cases hp
      exact markRange_keeps_true _ _ _ i h
    · split at hp
      · exact absurd hp (by simp)
      · cases hp
        exact markRange_keeps_true _ _ _ i h
  · simp only [processAction, if_neg hlen] at hp
    split at hp
    · cases hp
      exact h
    · split at hp
      · exact absurd hp (by simp)
      · cases hp
        exact h

theorem processActs_keeps_skip {data : List Char} {l : List MarkdownTagAction}
    {st : PassState} {acc : Int × Int × Bool} {st' : PassState}
    {acc' : Int × Int × Bool} (i : Nat)
    (hp : processActs data st acc l = .ok (st', acc'))
    (h : st.skip.getD i false = true) : st'.skip.getD i false = true := by
  induction l generalizing st acc with
  | nil =>
    simp only [processActs] at hp
    cases hp
    exact h
  | cons a rest ih =>
    simp only [processActs] at hp
    split at hp
    · exact absurd hp (by simp)
    · rename_i r hr
      exact ih hp (processAction_keeps_skip i hr h)

theorem passOne_keeps_skip {data : List Char} {l : List (Nat × Char)}
    {t : TagState} {st : PassState} {t' : TagState} {st' : PassState} (i : Nat)
    (hp : passOne data t st l = (t', .ok st'))
    (h : st.skip.getD i false = true) : st'.skip.getD i false = true := by
  induction l generalizing t st with
  | nil =>
    simp only [passOne, Prod.mk.injEq] at hp
    cases hp.2
    exact h
  | cons p rest ih =>
    obtain ⟨pi, pc⟩ := p
    simp only [passOne] at hp
    split_ifs at hp with hskip
    · exact ih hp h
    · split at hp
      · rename_i e he
        have := congrArg Prod.snd hp
        simp at this
      · rename_i stMid fr to_ inb heq
        refine ih hp ?_
        have hmid := processActs_keeps_skip i heq h
        by_cases hc : inb = true ∧ fr < to_
        · rwa [if_pos hc]
        · rwa [if_neg hc]

theorem applyTagsGo_keeps_skip {data : List Char} {ts : List TagState}
    {st st' : PassState} (i : Nat)
    (hp : (applyTagsGo data ts st).2 = .ok st')
    (h : st.skip.getD i false = true) : st'.skip.getD i false = true := by
  induction ts generalizing st with
  | nil =>
    simp only [applyTagsGo] at hp
    cases hp
    exact h
  | cons t ts ih =>
    simp only [applyTagsGo] at hp
    split at hp
    · simp at hp
    · rename_i t2 stMid hpass
      exact ih hp (passOne_keeps_skip i hpass h)

/-- C9: within one `Markdown` call, once a byte index is marked in the skip
bitmap it stays marked through the whole orchestration pass (marks are only
ever set, never cleared), and a marked index is never passed to a scanner —
the per-character loop skips it without invoking `Next`, so the scanner
state, queues and bitmaps are exactly those of the traversal without that
index. -/
theorem skip_bitmap_monotone_isolated :
    (∀ (data : List Char) (ts : List TagState) (st st' : PassState) (i : Nat),
       (applyTagsGo data ts st).2 = .ok st' → st.skip.getD i false = true →
       st'.skip.getD i false = true) ∧
    (∀ (data : List Char) (t : TagState) (st : PassState) (i : Nat) (c : Char)
       (rest : List (Nat × Char)), st.skip.getD i false = true →
       passOne data t st ((i, c) :: rest) = passOne data t st rest) := by
  constructor
  · intro data ts st st' i hp h
    exact applyTagsGo_keeps_skip i hp h
  · intro data t st i c rest h
    simp only [passOne]
    rw [if_pos h]

/-- C9 witness: with index 0 pre-marked, the full catalog pass over `"a"`
keeps the mark, and the italic scanner's traversal step at the marked index
is the traversal without it. -/
theorem skip_bitmap_monotone_isolated_witness :
    (⟨[true], [[]], [false]⟩ : PassState).skip.getD 0 false = true ∧
    passOne "a".toList (.generic tagItalic) ⟨[true], [[]], [false]⟩ ((0, 'a') :: []) =
      passOne "a".toList (.generic tagItalic) ⟨[true], [[]], [false]⟩ [] :=
  ⟨skip_bitmap_monotone_isolated.1 "a".toList initTags ⟨[true], [[]], [false]⟩
      ⟨[true], [[]], [false]⟩ 0 rfl rfl,
   skip_bitmap_monotone_isolated.2 "a".toList (.generic tagItalic)
      ⟨[true], [[]], [false]⟩ 0 'a' [] rfl⟩

/-! ### C10 -/

theorem renderList_keeps_unskipped_aux (actions : List (List MarkdownTagAction))
    (skip : List Bool) (l : List (Nat × Char)) (acc : List Char) :
    List.Sublist
      (acc ++ (l.filter (fun p => ! skip.getD p.1 false)).map Prod.snd)
      (l.foldl (fun acc2 p =>
        acc2 ++ emitAt actions p.1 ++
          (if skip.getD p.1 false = true then [] else [p.2])) acc) := by
  induction l generalizing acc with
  | nil => simp
  | cons p rest ih =>
    obtain ⟨i, c⟩ := p
    by_cases hs : skip.getD i false = true
    · simp only [List.foldl_cons, List.filter_cons, hs, Bool.not_true, if_true,
        List.append_nil]
      refine List.Sublist.trans ?_ (ih (acc ++ emitAt actions i))
      rw [List.append_assoc]
      exact (List.sublist_append_right (emitAt actions i) _).append_left acc
    · have hs' : skip.getD i false = false := by
        cases h : skip.getD i false
        · rfl
        · exact absurd h hs
      simp only [List.foldl_cons, List.filter_cons, hs', Bool.not_false, if_true,
        if_neg hs, List.map_cons]
      refine List.Sublist.trans ?_ (ih (acc ++ emitAt actions i ++ [c]))
      rw [show acc ++ c :: (rest.filter (fun p => ! skip.getD p.1 false)).map Prod.snd
            = (acc ++ [c]) ++ (rest.filter (fun p => ! skip.getD p.1 false)).map Prod.snd
          by simp]
      rw [List.append_assoc acc (emitAt actions i) [c]]
      exact ((List.sublist_append_right (emitAt actions i) [c]).append_left acc).append_right _

/-- C10: every character whose byte index is not marked skipped is emitted
by the renderer verbatim and in input order (the unskipped characters form
a sublist of the render output), a successful `Markdown` call is exactly
the block container wrapped around such a render, and no HTML escaping is
applied — `<`, `>` and `&` pass through unchanged, as on `"a <b> & c"`. -/
theorem unclaimed_chars_verbatim :
    (∀ (data : List Char) (actions : List (List MarkdownTagAction)) (skip : List Bool),
       List.Sublist
         (((enumBytes data).filter (fun p => ! skip.getD p.1 false)).map Prod.snd)
         (renderList data actions skip)) ∧
    (∀ (tags : List TagState) (data : List Char) (out : List Char),
       (markdownRunL tags data).2 = .ok out →
       ∃ acts skip, out = "<div>".toList ++ renderList data acts skip ++ "</div>".toList) ∧
    Markdown "a <b> & c" =
      .ok "<div><p class=\"leading-5 [&:not(:first-child)]:mt-5\">a <b> & </p>c</div>" := by
  refine ⟨?_, ?_, rfl⟩
  · intro data actions skip
    simpa [renderList] using renderList_keeps_unskipped_aux actions skip (enumBytes data) []
  · intro tags data out hp
    simp only [markdownRunL] at hp
    split at hp
    · exact absurd hp (by simp)
    · rename_i tags' st' heq
      exact ⟨_, st'.skip, (Except.ok.inj hp).symm⟩

/-- C10 witness: the successful call on `"a"` is the block container
around its render. -/
theorem unclaimed_chars_verbatim_witness :
    ∃ acts skip, "<div>a</div>".toList =
      "<div>".toList ++ renderList "a".toList acts skip ++ "</div>".toList :=
  unclaimed_chars_verbatim.2.1 initTags "a".toList "<div>a</div>".toList rfl

/-! ### C5 -/

theorem genericNext_oldline (g : GenericTagState) (i : Int) (c : Char) :
    (genericNext g i c).1.oldline = gOldlineNext g c := by
  simp only [genericNext]
  split_ifs <;> first | rfl | (cases g.Transformation <;> rfl)

theorem lastWs_step (b : Bool) (c : Char) (cs : List Char) :
    lastWsNonNewline b (c :: cs) =
      lastWsNonNewline (if c = '\n' then false else if goIsSpace c then true else b) cs := by
  unfold lastWsNonNewline
  rw [List.reverse_cons, List.find?_append]
  cases hf : List.find? goIsSpace cs.reverse with
  | some w => simp [hf, Option.or]
  | none =>
    by_cases hc : goIsSpace c
    · have hfc : List.find? goIsSpace [c] = some c := by simp [List.find?, hc]
      rw [hfc]
      by_cases hnl : c = '\n'
      · subst hnl; simp [Option.or]
      · simp [Option.or, hnl, hc]
    · have hnl : ¬ c = '\n' := by
        intro he; subst he; exact hc (by decide)
      have hfc : List.find? goIsSpace [c] = none := by simp [List.find?, hc]
      rw [hfc]
      simp [Option.or, hnl, hc]

theorem oldlineAfter_eq_lastWs (b : Bool) (cs : List Char) :
    oldlineAfter b cs = lastWsNonNewline b cs := by
  induction cs generalizing b with
  | nil => rfl
  | cons c cs ih => rw [oldlineAfter, ih, ← lastWs_step]

theorem scanGeneric_oldline (g : GenericTagState) (l : List (Nat × Char)) :
    (scanGeneric g l).1.oldline = oldlineAfter g.oldline (l.map Prod.snd) := by
  induction l generalizing g with
  | nil => rfl
  | cons p rest ih =>
    obtain ⟨i, c⟩ := p
    simp only [scanGeneric, List.map_cons, oldlineAfter]
    rw [ih, genericNext_oldline]
    rfl

/-- C5 amended: the idle-to-open transition of a generic scanner fires
exactly when the scanner is idle with no pending escape, the consumed
character is not an enabled escape backslash, the new trailing window
equals an opening trigger, and — for line-start-constrained tags — the
`oldline` flag is false; and after any feed, `oldline` equals "the most
recently fed whitespace character was a non-newline whitespace".  In
particular the transition can fire mid-line right after non-whitespace
characters (no whitespace fed since the last newline), and it does not
fire when the last whitespace fed was a space or tab even directly after a
newline. -/
theorem generic_open_characterization :
    (∀ (g : GenericTagState) (i : Int) (c : Char), g.opened = false →
       ((genericNext g i c).1.opened = true ↔
         g.skip = false ∧ ¬(g.DisableSkip = false ∧ c = '\\') ∧
         gWindowNext g c ∈ g.Triggers ∧
         (g.OnNewline = false ∨ g.oldline = false))) ∧
    (∀ (g : GenericTagState) (l : List (Nat × Char)),
       (scanGeneric g l).1.oldline = lastWsNonNewline g.oldline (l.map Prod.snd)) := by
  constructor
  · intro g i c hop
    simp only [genericNext]
    split_ifs with h1 h2 h3 h4
    · simp only [hop]
      constructor
      · intro hfalse; exact absurd hfalse (by simp)
      · intro hrhs; exact absurd h1 (by simp [hrhs.1])
    · simp only [hop]
      constructor
      · intro hfalse; exact absurd hfalse (by simp)
      · intro hrhs; exact absurd h2 hrhs.2.1
    · simp only [true_iff]
      refine ⟨by simpa using h1, h2, h3.2.1, h3.2.2⟩
    · exact absurd h4.1 (by simp [hop])
    · constructor
      · intro hfalse; exact absurd (hop ▸ hfalse) (by simp)
      · intro hrhs; exact absurd ⟨hop, hrhs.2.2.1, hrhs.2.2.2⟩ h3
  · intro g l
    rw [scanGeneric_oldline, oldlineAfter_eq_lastWs]

/-- C5 amended witness: the level-1 heading scanner, two characters into
`ab# `, opens on the space (mid-line, right after `b`), and the oldline
history of the `"ab# c"` feed is its last-whitespace summary. -/
theorem generic_open_characterization_witness :
    (genericNext { tagH1 with Window := ['b', '#'], windowSize := 2, TriggersClosing := [['\n']] } 3 ' ').1.opened = true ∧
    (scanGeneric tagH1 (enumBytes "ab# c".toList)).1.oldline =
      lastWsNonNewline tagH1.oldline ((enumBytes "ab# c".toList).map Prod.snd) :=
  ⟨(generic_open_characterization.1 { tagH1 with Window := ['b', '#'], windowSize := 2, TriggersClosing := [['\n']] } 3 ' ' rfl).mpr (by decide),
   generic_open_characterization.2 tagH1 (enumBytes "ab# c".toList)⟩

/-! ### C3 -/

theorem mem_gWindowNext {x : Char} (g : GenericTagState) (c : Char)
    (hx : x ∈ gWindowNext g c) : x ∈ g.Window ∨ x = c := by
  simp only [gWindowNext] at hx
  have hx2 : x ∈ g.Window ++ [c] := by
    split_ifs at hx with h
    · exact (List.drop_sublist 1 _).subset hx
    · exact hx
  rcases List.mem_append.mp hx2 with h | h
  · exact Or.inl h
  · exact Or.inr (List.mem_singleton.mp h)

theorem genericNext_clean (g : GenericTagState) (i : Int) (c : Char)
    (hcfg : cleanCfg g) (hst : cleanSt g) (hc : ¬ badChar c) :
    (genericNext g i c).2 = [] ∧ cleanCfg (genericNext g i c).1 ∧
      cleanSt (genericNext g i c).1 := by
  have hwin : ∀ x ∈ gWindowNext g c, ¬ badChar x := by
    intro x hx
    rcases mem_gWindowNext g c hx with h | h
    · exact hst.2 x h
    · exact h ▸ hc
  have hnotrig : gWindowNext g c ∉ g.Triggers := by
    intro ht
    obtain ⟨y, hy, hby⟩ := hcfg _ ht
    exact hwin y hy hby
  simp only [genericNext]
  split_ifs with h1 h2 h3 h4
  · exact ⟨rfl, hcfg, hst.1, hwin⟩
  · exact ⟨rfl, hcfg, hst.1, hwin⟩
  · exact absurd h3.2.1 hnotrig
  · exact absurd h4.1 (by simp [hst.1])
  · exact ⟨rfl, hcfg, hst.1, hwin⟩

theorem linkNext_clean (t : LinkTagState) (i : Int) (c : Char)
    (h1 : t.openHint = false) (h2 : t.openLink = false) (hc : ¬ badChar c) :
    (linkNext t i c).2 = [] ∧ (linkNext t i c).1.openHint = false ∧
      (linkNext t i c).1.openLink = false := by
  have hcb : ¬ c = '[' := fun he => hc (Or.inr (Or.inr (Or.inr (Or.inr (Or.inr he)))))
  simp only [linkNext]
  split_ifs <;> simp_all

theorem tagClean_next (t : TagState) (i : Int) (c : Char) (h : tagClean t)
    (hc : ¬ badChar c) : (t.next i c).2 = [] ∧ tagClean (t.next i c).1 := by
  cases t with
  | generic g =>
    obtain ⟨e1, e2, e3⟩ := genericNext_clean g i c h.1 h.2 hc
    exact ⟨e1, e2, e3⟩
  | tlink lt =>
    obtain ⟨e1, e2, e3⟩ := linkNext_clean lt i c h.1 h.2 hc
    exact ⟨e1, e2, e3⟩

theorem passOne_clean (data : List Char) :
    ∀ (l : List (Nat × Char)) (t : TagState) (st : PassState),
    tagClean t → (∀ p ∈ l, ¬ badChar p.2) →
    (passOne data t st l).2 = .ok st ∧ tagClean (passOne data t st l).1 := by
  intro l
  induction l with
  | nil => intro t st h _; exact ⟨rfl, h⟩
  | cons p rest ih =>
    intro t st h hl
    obtain ⟨i, c⟩ := p
    have hc : ¬ badChar c := hl (i, c) (List.mem_cons_self _ _)
    have hrest : ∀ q ∈ rest, ¬ badChar q.2 := fun q hq => hl q (List.mem_cons_of_mem _ hq)
    have hnext := tagClean_next t (Int.ofNat i) c h hc
    simp only [passOne]
    split_ifs with hskip
    · exact ih t st h hrest
    · rw [hnext.1]
      simp only [processActs]
      rw [if_neg (by simp)]
      exact ih _ st hnext.2 hrest

theorem applyTagsGo_clean (data : List Char) :
    ∀ (ts : List TagState) (st : PassState), (∀ t ∈ ts, tagClean t) →
    (∀ p ∈ enumBytes data, ¬ badChar p.2) →
    (applyTagsGo data ts st).2 = .ok st := by
  intro ts
  induction ts with
  | nil => intro st _ _; rfl
  | cons t ts ih =>
    intro st h hl
    have hp := passOne_clean data (enumBytes data) t st
      (h t (List.mem_cons_self _ _)) hl
    simp only [applyTagsGo]
    split
    · rename_i t' e heq
      rw [heq] at hp
      exact absurd hp.1 (by simp)
    · rename_i t' st2 heq
      rw [heq] at hp
      have hst2 : st2 = st := Except.ok.inj hp.1
      subst hst2
      exact ih _ (fun x hx => h x (List.mem_cons_of_mem _ hx)) hl

theorem mem_enumBytesFrom_snd {p : Nat × Char} :
    ∀ (k : Nat) (l : List Char), p ∈ enumBytesFrom k l → p.2 ∈ l := by
  intro k l
  induction l generalizing k with
  | nil => intro h; exact absurd h (by simp [enumBytesFrom])
  | cons c cs ih =>
    intro h
    rcases List.mem_cons.mp h with h | h
    · rw [h]; exact List.mem_cons_self _ _
    · exact List.mem_cons_of_mem _ (ih _ h)

theorem enumBytesFrom_map_snd : ∀ (k : Nat) (l : List Char),
    (enumBytesFrom k l).map Prod.snd = l := by
  intro k l
  induction l generalizing k with
  | nil => rfl
  | cons c cs ih => simp [enumBytesFrom, ih]

theorem initTags_clean : ∀ t ∈ initTags, tagClean t := by decide

/-- C3 amended: for input containing none of the marker characters
`* _ ` # > [` (so no catalog trigger can match and the link scanner never
arms), the orchestration pass contributes nothing — `Markdown` returns the
block container wrapping the render of the input under the paragraph
synthesizer's insertions alone, every input character is emitted in order
(the input is a sublist of the render), and nothing else is added. -/
theorem markdown_trigger_free_only_wrappers (s : String)
    (h : ∀ c ∈ s.toList, ¬ badChar c) :
    Markdown s = .ok (String.mk ("<div>".toList ++
      renderList s.toList
        (markdownApplyParagraphs (List.replicate (byteLen s.toList) [])
          (List.replicate (byteLen s.toList) false) s.toList)
        (List.replicate (byteLen s.toList) false) ++ "</div>".toList)) ∧
    List.Sublist s.toList
      (renderList s.toList
        (markdownApplyParagraphs (List.replicate (byteLen s.toList) [])
          (List.replicate (byteLen s.toList) false) s.toList)
        (List.replicate (byteLen s.toList) false)) := by
  have hl : ∀ p ∈ enumBytes s.toList, ¬ badChar p.2 :=
    fun p hp => h p.2 (mem_enumBytesFrom_snd 0 _ hp)
  have htags := applyTagsGo_clean s.toList initTags
    ⟨List.replicate (byteLen s.toList) false, List.replicate (byteLen s.toList) [],
     List.replicate (byteLen s.toList) false⟩ initTags_clean hl
  constructor
  · have hpair : applyTagsGo s.toList initTags
        ⟨List.replicate (byteLen s.toList) false, List.replicate (byteLen s.toList) [],
         List.replicate (byteLen s.toList) false⟩ =
        ((applyTagsGo s.toList initTags
          ⟨List.replicate (byteLen s.toList) false, List.replicate (byteLen s.toList) [],
           List.replicate (byteLen s.toList) false⟩).1,
         .ok ⟨List.replicate (byteLen s.toList) false, List.replicate (byteLen s.toList) [],
              List.replicate (byteLen s.toList) false⟩) := by
      rw [← htags]
    show Except.map String.mk (markdownRunL initTags s.toList).2 = _
    simp only [markdownRunL]
    rw [hpair]
    rfl
  · have haux := renderList_keeps_unskipped_aux
      (markdownApplyParagraphs (List.replicate (byteLen s.toList) [])
        (List.replicate (byteLen s.toList) false) s.toList)
      (List.replicate (byteLen s.toList) false) (enumBytes s.toList) []
    have hfilter : (enumBytes s.toList).filter
        (fun p => ! (List.replicate (byteLen s.toList) false).getD p.1 false) =
        enumBytes s.toList :=
      List.filter_eq_self.mpr (fun p _ => by rw [getD_replicate_self]; rfl)
    have hmap : List.map Prod.snd (enumBytes s.toList) = s.toList :=
      enumBytesFrom_map_snd 0 s.toList
    rw [hfilter] at haux
    rw [hmap, List.nil_append] at haux
    simpa [renderList] using haux

/-- C3 witness: the trigger-free input `"hello"`. -/
theorem markdown_trigger_free_only_wrappers_witness :
    Markdown "hello" = .ok (String.mk ("<div>".toList ++
      renderList "hello".toList
        (markdownApplyParagraphs (List.replicate (byteLen "hello".toList) [])
          (List.replicate (byteLen "hello".toList) false) "hello".toList)
        (List.replicate (byteLen "hello".toList) false) ++ "</div>".toList)) ∧
    List.Sublist "hello".toList
      (renderList "hello".toList
        (markdownApplyParagraphs (List.replicate (byteLen "hello".toList) [])
          (List.replicate (byteLen "hello".toList) false) "hello".toList)
        (List.replicate (byteLen "hello".toList) false)) :=
  markdown_trigger_free_only_wrappers "hello" (by decide)

/-! ### C6 -/

theorem byteLen_ascii (l : List Char) (h : ∀ c ∈ l, c.utf8Size = 1) :
    byteLen l = l.length := by
  induction l with
  | nil => rfl
  | cons c cs ih =>
    simp only [byteLen, List.length_cons, h c (List.mem_cons_self _ _),
      ih (fun x hx => h x (List.mem_cons_of_mem _ hx))]
    omega

theorem byteSliceFrom_ascii (l : List Char) (h : ∀ c ∈ l, c.utf8Size = 1) :
    ∀ (off a b : Nat), byteSliceFrom off l a b = (l.take (b - off)).drop (a - off) := by
  induction l with
  | nil => intro off a b; simp [byteSliceFrom]
  | cons c cs ih =>
    intro off a b
    have hc : c.utf8Size = 1 := h c (List.mem_cons_self _ _)
    have ihcs := ih (fun x hx => h x (List.mem_cons_of_mem _ hx))
    simp only [byteSliceFrom, hc]
    by_cases hb : off + 1 ≤ b
    · have hbo : b - off = (b - (off + 1)) + 1 := by omega
      by_cases ha : a ≤ off
      · rw [if_pos ⟨ha, hb⟩, ihcs (off + 1) a b, hbo]
        have ha1 : a - off = 0 := by omega
        have ha2 : a - (off + 1) = 0 := by omega
        simp [ha1, ha2]
      · rw [if_neg (by tauto), ihcs (off + 1) a b, hbo]
        have ha1 : a - off = (a - (off + 1)) + 1 := by omega
        simp [ha1]
    · rw [if_neg (by omega), ihcs (off + 1) a b]
      have h1 : b - off = 0 := by omega
      have h2 : b - (off + 1) = 0 := by omega
      simp [h1, h2]

theorem byteSliceN_ascii (l : List Char) (h : ∀ c ∈ l, c.utf8Size = 1)
    (a b : Nat) : byteSliceN l a b = (l.take b).drop a := by
  simpa using byteSliceFrom_ascii l h 0 a b

theorem getD_append_left (u w : List α) (k : Nat) (d : α) (h : k < u.length) :
    (u ++ w).getD k d = u.getD k d := by
  induction u generalizing k with
  | nil => simp at h
  | cons x xs ih =>
    cases k with
    | zero => rfl
    | succ j =>
      simp only [List.cons_append, List.getD_cons_succ]
      exact ih j (by simpa using h)

theorem getD_append_plus (u w : List α) (k : Nat) (d : α) :
    (u ++ w).getD (u.length + k) d = w.getD k d := by
  induction u with
  | nil => simp
  | cons x xs ih =>
    simp only [List.cons_append, List.length_cons]
    have : xs.length + 1 + k = (xs.length + k) + 1 := by omega
    rw [this, List.getD_cons_succ, ih]

theorem take_append_plus (u w : List α) (k : Nat) :
    (u ++ w).take (u.length + k) = u ++ w.take k := by
  induction u with
  | nil => simp
  | cons x xs ih =>
    simp only [List.cons_append, List.length_cons]
    have : xs.length + 1 + k = (xs.length + k) + 1 := by omega
    rw [this, List.take_succ_cons, ih]

theorem drop_append_plus (u w : List α) (k : Nat) :
    (u ++ w).drop (u.length + k) = w.drop k := by
  induction u with
  | nil => simp
  | cons x xs ih =>
    simp only [List.cons_append, List.length_cons]
    have : xs.length + 1 + k = (xs.length + k) + 1 := by omega
    rw [this, List.drop_succ_cons, ih]

theorem take_drop_two (l : List α) (d : α) :
    ∀ (j : Nat), j + 1 < l.length →
    (l.take (j + 2)).drop j = [l.getD j d, l.getD (j + 1) d] := by
  induction l with
  | nil => intro j h; simp at h
  | cons x xs ih =>
    intro j h
    cases j with
    | zero =>
      cases xs with
      | nil => simp at h
      | cons y ys => simp [List.take]
    | succ j' =>
      simp only [List.take_succ_cons, List.drop_succ_cons, List.getD_cons_succ]
      exact ih j' (by simpa using h)

theorem trimSpace_cons_ws (c : Char) (l : List Char) (h : goIsSpace c = true) :
    trimSpace (c :: l) = trimSpace l := by
  unfold trimSpace
  rw [List.dropWhile_cons_of_pos h]

theorem getD_setTrueRange_ge (l : List Bool) :
    ∀ (n a j : Nat), a + n ≤ j → (setTrueRange l a n).getD j false = l.getD j false := by
  intro n
  induction n generalizing l with
  | zero => intro a j _; rfl
  | succ m ih =>
    intro a j hj
    simp only [setTrueRange]
    rw [ih (setN l a true) (a + 1) j (by omega)]
    exact getD_setN_ne l a j true false (by omega)

theorem emitAt_of_empty (acts : List (List MarkdownTagAction)) (i : Nat)
    (h : acts.getD i [] = []) : emitAt acts i = [] := by
  unfold emitAt
  rw [h]
  rfl

theorem emitAt_of_single (acts : List (List MarkdownTagAction)) (i : Nat)
    (a : MarkdownTagAction) (h : acts.getD i [] = [a]) :
    emitAt acts i = a.Insertion.toList := by
  unfold emitAt
  rw [h]
  rfl

theorem enumBytesFrom_append (u w : List Char) :
    ∀ k, enumBytesFrom k (u ++ w) = enumBytesFrom k u ++ enumBytesFrom (k + byteLen u) w := by
  induction u with
  | nil => intro k; simp [enumBytesFrom, byteLen]
  | cons c cs ih =>
    intro k
    show (k, c) :: enumBytesFrom (k + c.utf8Size) (cs ++ w) =
      (k, c) :: (enumBytesFrom (k + c.utf8Size) cs ++
        enumBytesFrom (k + (c.utf8Size + byteLen cs)) w)
    rw [ih, Nat.add_assoc]

theorem getD_mem (l : List α) (n : Nat) (d : α) (h : n < l.length) : l.getD n d ∈ l := by
  induction l generalizing n with
  | nil => simp at h
  | cons x xs ih =>
    cases n with
    | zero => exact List.mem_cons_self _ _
    | succ m =>
      rw [List.getD_cons_succ]
      exact List.mem_cons_of_mem _ (ih m (by simpa using h))

theorem skipRep_if (blen j : Nat) (c : Char) :
    (if (List.replicate blen false).getD j false = true then ([] : List Char) else [c]) = [c] := by
  rw [getD_replicate_self]
  simp

theorem paraInner_run (data : List Char) :
    ∀ (fuel start stop : Nat) (paras : List Bool),
    1 ≤ start → start ≤ stop → stop ≤ byteLen data →
    (∀ j, start ≤ j → j < stop →
      paras.getD j false = false ∧ ¬ byteSliceN data (j - 1) (j + 1) = ['\n', '\n']) →
    (stop = byteLen data ∨ paras.getD stop false = true ∨
      byteSliceN data (stop - 1) (stop + 1) = ['\n', '\n']) →
    stop - start < fuel →
    paraInner data fuel paras start = (setTrueRange paras (start - 1) (stop - start), stop) := by
  intro fuel
  induction fuel with
  | zero => intro start stop paras _ _ _ _ _ h5; omega
  | succ f ih =>
    intro start stop paras hs1 h1 h2 h3 h4 h5
    by_cases hse : start = stop
    · subst hse
      simp only [paraInner, Nat.sub_self, setTrueRange]
      by_cases hlt : start < byteLen data
      · rw [if_pos hlt, if_pos (by
          rcases h4 with h4 | h4 | h4
          · omega
          · exact Or.inl h4
          · exact Or.inr h4)]
      · rw [if_neg hlt]
    · have hlt : start < stop := by omega
      have hstart := h3 start (le_refl _) hlt
      simp only [paraInner]
      rw [if_pos (by omega),
        if_neg (fun hcon => hcon.elim
          (fun hA => by rw [hstart.1] at hA; exact Bool.false_ne_true hA) hstart.2)]
      have harith : stop - start = (stop - (start + 1)) + 1 := by omega
      rw [harith]
      simp only [setTrueRange]
      rw [show start - 1 + 1 = start from by omega]
      exact ih (start + 1) stop (setN paras (start - 1) true) (by omega) (by omega) h2
        (fun j hj1 hj2 => ⟨by
          rw [getD_setN_ne paras (start - 1) j true false (by omega)]
          exact (h3 j (by omega) hj2).1, (h3 j (by omega) hj2).2⟩)
        (by
          rcases h4 with h4 | h4 | h4
          · exact Or.inl h4
          · refine Or.inr (Or.inl ?_)
            rw [getD_setN_ne paras (start - 1) stop true false (by omega)]
            exact h4
          · exact Or.inr (Or.inr h4))
        (by omega)

theorem foldl_render_shift (g hh : Nat × Char → List Char) :
    ∀ (l : List (Nat × Char)) (acc : List Char),
    l.foldl (fun a p => a ++ g p ++ hh p) acc =
      acc ++ l.foldl (fun a p => a ++ g p ++ hh p) [] := by
  intro l
  induction l with
  | nil => intro acc; simp
  | cons p rest ih =>
    intro acc
    simp only [List.foldl_cons]
    rw [ih (acc ++ g p ++ hh p), ih ([] ++ g p ++ hh p)]
    simp

theorem fold_render_quiet (acts : List (List MarkdownTagAction)) (blen : Nat) :
    ∀ (l : List Char), (∀ c ∈ l, c.utf8Size = 1) →
    ∀ (k : Nat) (acc : List Char),
    (∀ j, k ≤ j → j < k + l.length → acts.getD j [] = []) →
    (enumBytesFrom k l).foldl
      (fun acc2 p => acc2 ++ emitAt acts p.1 ++
        (if (List.replicate blen false).getD p.1 false = true then [] else [p.2])) acc =
      acc ++ l := by
  intro l
  induction l with
  | nil => intro _ k acc _; simp [enumBytesFrom]
  | cons c cs ih =>
    intro ha k acc hq
    have hc : c.utf8Size = 1 := ha c (List.mem_cons_self _ _)
    simp only [enumBytesFrom, List.foldl_cons]
    rw [emitAt_of_empty acts k (hq k (le_refl _) (by simp)), skipRep_if, hc,
      List.append_nil]
    rw [ih (fun x hx => ha x (List.mem_cons_of_mem _ hx)) (k + 1) (acc ++ [c])
      (fun j hj1 hj2 => hq j (by omega) (by simp only [List.length_cons]; omega))]
    simp

theorem paraOuter_step (data : List Char) (f : Nat)
    (acts : List (List MarkdownTagAction)) (paras paras' : List Bool)
    (fr stop : Nat) (hfr : fr < byteLen data) (hp : paras.getD fr false = false)
    (hrun : paraInner data (byteLen data + 1) paras (fr + 1) = (paras', stop))
    (htrim : ¬ trimSpace (byteSliceN data fr (stop - 1)) = []) :
    paraOuter data (f + 1) acts paras fr =
      paraOuter data f
        (setN (setN acts fr ([pOpenAct (Int.ofNat fr)] ++ acts.getD fr []))
          (stop - 1)
          ((setN acts fr ([pOpenAct (Int.ofNat fr)] ++ acts.getD fr [])).getD (stop - 1) [] ++
            [pCloseAct (Int.ofNat (stop - 1))]))
        paras' (stop - 1 + 1) := by
  simp only [paraOuter]
  rw [if_pos hfr, if_neg (by rw [hp]; exact Bool.false_ne_true), hrun,
    if_neg htrim]

theorem paraOuter_done (data : List Char) (f : Nat)
    (acts : List (List MarkdownTagAction)) (paras : List Bool) (fr : Nat)
    (h : ¬ fr < byteLen data) : paraOuter data (f + 1) acts paras fr = acts := by
  simp only [paraOuter]
  rw [if_neg h]

theorem paraOuter_step2 (data : List Char) (fuel f : Nat) (hf : fuel = f + 1)
    (acts : List (List MarkdownTagAction)) (paras paras' : List Bool)
    (fr stop : Nat) (hfr : fr < byteLen data) (hp : paras.getD fr false = false)
    (hrun : paraInner data (byteLen data + 1) paras (fr + 1) = (paras', stop))
    (htrim : ¬ trimSpace (byteSliceN data fr (stop - 1)) = []) :
    paraOuter data fuel acts paras fr =
      paraOuter data f
        (setN (setN acts fr ([pOpenAct (Int.ofNat fr)] ++ acts.getD fr []))
          (stop - 1)
          ((setN acts fr ([pOpenAct (Int.ofNat fr)] ++ acts.getD fr [])).getD (stop - 1) [] ++
            [pCloseAct (Int.ofNat (stop - 1))]))
        paras' (stop - 1 + 1) := by
  subst hf
  exact paraOuter_step data f acts paras paras' fr stop hfr hp hrun htrim

theorem paraOuter_done2 (data : List Char) (fuel f : Nat) (hf : fuel = f + 1)
    (acts : List (List MarkdownTagAction)) (paras : List Bool) (fr : Nat)
    (h : ¬ fr < byteLen data) : paraOuter data fuel acts paras fr = acts := by
  subst hf
  exact paraOuter_done data f acts paras fr h

theorem fold_render_first (acts : List (List MarkdownTagAction)) (blen : Nat)
    (l : List Char) (ha : ∀ c ∈ l, c.utf8Size = 1) (a : MarkdownTagAction)
    (h0 : acts.getD 0 [] = [a])
    (hq : ∀ j, 1 ≤ j → j < l.length → acts.getD j [] = []) (hl : l ≠ []) :
    (enumBytesFrom 0 l).foldl
      (fun acc2 p => acc2 ++ emitAt acts p.1 ++
        (if (List.replicate blen false).getD p.1 false = true then [] else [p.2])) [] =
      a.Insertion.toList ++ l := by
  cases l with
  | nil => exact absurd rfl hl
  | cons c cs =>
    have hc : c.utf8Size = 1 := ha c (List.mem_cons_self _ _)
    simp only [enumBytesFrom, List.foldl_cons, hc, Nat.zero_add]
    rw [emitAt_of_single acts 0 a h0, skipRep_if, List.nil_append]
    rw [fold_render_quiet acts blen cs (fun x hx => ha x (List.mem_cons_of_mem _ hx)) 1
      (a.Insertion.toList ++ [c])
      (fun j hj1 hj2 => hq j hj1 (by simp only [List.length_cons]; omega))]
    simp

set_option maxHeartbeats 1000000

/-- C6 (amended): for a document of two trigger-free, newline-free runs
separated by one blank line, `Markdown` wraps the first run exactly in the
paragraph pair, while the second paragraph opens at the blank line's second
newline and closes before the final character: the output is the block
container around open ++ u ++ close ++ \n ++ open ++ \n ++ v ++ close ++ z. -/
theorem markdown_two_runs_paragraphs (u v : List Char) (z : Char)
    (hu1 : ∀ c ∈ u, ¬ badChar c) (hu2 : ∀ c ∈ u, c ≠ '\n')
    (hu3 : ∀ c ∈ u, c.utf8Size = 1)
    (hv1 : ∀ c ∈ v, ¬ badChar c) (hv2 : ∀ c ∈ v, c ≠ '\n')
    (hv3 : ∀ c ∈ v, c.utf8Size = 1)
    (hz1 : ¬ badChar z) (hz2 : z ≠ '\n') (hz3 : z.utf8Size = 1)
    (htu : trimSpace u ≠ []) (htv : trimSpace v ≠ []) :
    Markdown (String.mk (u ++ '\n' :: '\n' :: (v ++ [z]))) =
      .ok (String.mk ("<div>".toList ++ paragraphOpenText.toList ++ u ++
        paragraphCloseText.toList ++ '\n' :: (paragraphOpenText.toList ++ '\n' ::
        (v ++ paragraphCloseText.toList ++ z :: "</div>".toList)))) := by
  have hu0 : u ≠ [] := fun he => htu (by simp [he, trimSpace])
  have hL : 1 ≤ u.length := List.length_pos.mpr hu0
  have hv0 : v ≠ [] := fun he => htv (by simp [he, trimSpace])
  have hM : 1 ≤ v.length := List.length_pos.mpr hv0
  set data : List Char := u ++ '\n' :: '\n' :: (v ++ [z]) with hdata
  have hdascii : ∀ c ∈ data, c.utf8Size = 1 := by
    intro c hc
    rcases List.mem_append.mp hc with h | h
    · exact hu3 c h
    · rcases List.mem_cons.mp h with h | h
      · rw [h]; rfl
      · rcases List.mem_cons.mp h with h | h
        · rw [h]; rfl
        · rcases List.mem_append.mp h with h | h
          · exact hv3 c h
          · rw [List.mem_singleton.mp h]; exact hz3
  have hdbad : ∀ c ∈ data, ¬ badChar c := by
    intro c hc
    rcases List.mem_append.mp hc with h | h
    · exact hu1 c h
    · rcases List.mem_cons.mp h with h | h
      · rw [h]; decide
      · rcases List.mem_cons.mp h with h | h
        · rw [h]; decide
        · rcases List.mem_append.mp h with h | h
          · exact hv1 c h
          · rw [List.mem_singleton.mp h]; exact hz1
  have hdlen : data.length = u.length + v.length + 3 := by
    simp [hdata]
    omega
  have hblen : byteLen data = u.length + v.length + 3 := by
    rw [byteLen_ascii data hdascii, hdlen]
  have hgetw : ∀ k d, data.getD (u.length + k) d = ('\n' :: '\n' :: (v ++ [z])).getD k d :=
    fun k d => getD_append_plus u _ k d
  have hget0 : data.getD u.length ' ' = '\n' := by
    have := hgetw 0 ' '
    simpa using this
  have hget1 : data.getD (u.length + 1) ' ' = '\n' := hgetw 1 ' '
  have hwz : ∀ k, k < v.length + 1 → (v ++ [z]).getD k ' ' ≠ '\n' := by
    intro k hk
    have hmem : (v ++ [z]).getD k ' ' ∈ v ++ [z] :=
      getD_mem _ k ' ' (by simp [List.length_append]; omega)
    rcases List.mem_append.mp hmem with h | h
    · exact hv2 _ h
    · rw [List.mem_singleton.mp h]; exact hz2
  have hgetvz : ∀ k, data.getD (u.length + (2 + k)) ' ' = (v ++ [z]).getD k ' ' := by
    intro k
    rw [hgetw (2 + k) ' ', show 2 + k = k + 1 + 1 from by omega,
      List.getD_cons_succ, List.getD_cons_succ]
  have hsliceTwo : ∀ j, 1 ≤ j → j < byteLen data →
      byteSliceN data (j - 1) (j + 1) = [data.getD (j - 1) ' ', data.getD j ' '] := by
    intro j hj1 hj2
    rw [byteSliceN_ascii data hdascii, show j + 1 = (j - 1) + 2 from by omega]
    have h2t := take_drop_two data ' ' (j - 1)
      (by rw [byteLen_ascii data hdascii] at hj2; omega)
    rw [show j - 1 + 1 = j from by omega] at h2t
    exact h2t
  have hrun1 : paraInner data (byteLen data + 1) (List.replicate (byteLen data) false) (0 + 1) =
      (setTrueRange (List.replicate (byteLen data) false) (1 - 1) (u.length + 1 - 1),
       u.length + 1) := by
    refine paraInner_run data (byteLen data + 1) 1 (u.length + 1)
      (List.replicate (byteLen data) false) (by omega) (by omega) (by omega) ?_ ?_ (by omega)
    · intro j hj1 hj2
      refine ⟨getD_replicate_self _ _ _, ?_⟩
      rw [hsliceTwo j hj1 (by omega)]
      intro heq
      simp only [List.cons.injEq] at heq
      have e1 := heq.1
      rw [getD_append_left u _ (j - 1) ' ' (by omega)] at e1
      exact hu2 _ (getD_mem u (j - 1) ' ' (by omega)) e1
    · refine Or.inr (Or.inr ?_)
      rw [hsliceTwo (u.length + 1) (by omega) (by omega),
        show u.length + 1 - 1 = u.length from by omega, hget0, hget1]
  rw [show (1 : Nat) - 1 = 0 from rfl, Nat.add_sub_cancel] at hrun1
  have htakeu : data.take u.length = u := by
    rw [hdata]; exact List.take_left u _
  have htrim1 : ¬ trimSpace (byteSliceN data 0 (u.length + 1 - 1)) = [] := by
    rw [Nat.add_sub_cancel, byteSliceN_ascii data hdascii]
    simp only [List.drop_zero]
    rw [htakeu]
    exact htu
  have hrun2 : paraInner data (byteLen data + 1)
      (setTrueRange (List.replicate (byteLen data) false) 0 u.length) (u.length + 1 + 1) =
      (setTrueRange (setTrueRange (List.replicate (byteLen data) false) 0 u.length)
        (u.length + 1 + 1 - 1) (byteLen data - (u.length + 1 + 1)), byteLen data) := by
    refine paraInner_run data (byteLen data + 1) (u.length + 1 + 1) (byteLen data)
      (setTrueRange (List.replicate (byteLen data) false) 0 u.length)
      (by omega) (by omega) (by omega) ?_ (Or.inl rfl) (by omega)
    intro j hj1 hj2
    refine ⟨?_, ?_⟩
    · rw [getD_setTrueRange_ge _ u.length 0 j (by omega)]
      exact getD_replicate_self _ _ _
    · rw [hsliceTwo j (by omega) (by omega)]
      intro heq
      simp only [List.cons.injEq] at heq
      by_cases hj3 : j = u.length + 2
      · have e2 := heq.2.1
        rw [show j = u.length + (2 + 0) from by omega, hgetvz 0] at e2
        exact hwz 0 (by omega) e2
      · have e1 := heq.1
        rw [show j - 1 = u.length + (2 + (j - u.length - 3)) from by omega,
          hgetvz (j - u.length - 3)] at e1
        exact hwz (j - u.length - 3) (by omega) e1
  have htrim2 : ¬ trimSpace (byteSliceN data (u.length + 1) (byteLen data - 1)) = [] := by
    rw [byteSliceN_ascii data hdascii]
    have htk : data.take (byteLen data - 1) = u ++ '\n' :: '\n' :: v := by
      rw [show byteLen data - 1 = u.length + (v.length + 2) from by omega, hdata,
        take_append_plus, show v.length + 2 = v.length + 1 + 1 from rfl]
      simp only [List.take_succ_cons]
      rw [List.take_left]
    rw [htk, drop_append_plus u ('\n' :: '\n' :: v) 1]
    simp only [List.drop_succ_cons, List.drop_zero]
    rw [trimSpace_cons_ws '\n' v (by decide)]
    exact htv
  have hacts : markdownApplyParagraphs (List.replicate (byteLen data) [])
      (List.replicate (byteLen data) false) data =
      setN (setN (setN (setN (List.replicate (byteLen data) ([] : List MarkdownTagAction))
        0 [pOpenAct (Int.ofNat 0)])
        u.length ([pCloseAct (Int.ofNat u.length)]))
        (u.length + 1) [pOpenAct (Int.ofNat (u.length + 1))])
        (byteLen data - 1) [pCloseAct (Int.ofNat (byteLen data - 1))] := by
    have e1 := paraOuter_step2 data (byteLen data + 1) (byteLen data) rfl
      (List.replicate (byteLen data) []) (List.replicate (byteLen data) false)
      (setTrueRange (List.replicate (byteLen data) false) 0 u.length)
      0 (u.length + 1) (by omega) (getD_replicate_self _ _ _) hrun1 htrim1
    rw [Nat.add_sub_cancel] at e1
    rw [getD_replicate_self, List.append_nil,
      getD_setN_ne (List.replicate (byteLen data) []) 0 u.length _ [] (by omega),
      getD_replicate_self, List.nil_append] at e1
    have e2 := paraOuter_step2 data (byteLen data) (byteLen data - 1) (by omega)
      (setN (setN (List.replicate (byteLen data) ([] : List MarkdownTagAction))
        0 [pOpenAct (Int.ofNat 0)]) u.length [pCloseAct (Int.ofNat u.length)])
      (setTrueRange (List.replicate (byteLen data) false) 0 u.length)
      (setTrueRange (setTrueRange (List.replicate (byteLen data) false) 0 u.length)
        (u.length + 1 + 1 - 1) (byteLen data - (u.length + 1 + 1)))
      (u.length + 1) (byteLen data) (by omega)
      (by
        rw [getD_setTrueRange_ge _ u.length 0 (u.length + 1) (by omega)]
        exact getD_replicate_self _ _ _)
      hrun2 htrim2
    rw [getD_setN_ne _ u.length (u.length + 1) _ [] (by omega),
      getD_setN_ne _ 0 (u.length + 1) _ [] (by omega),
      getD_replicate_self, List.append_nil,
      getD_setN_ne _ (u.length + 1) (byteLen data - 1) _ [] (by omega),
      getD_setN_ne _ u.length (byteLen data - 1) _ [] (by omega),
      getD_setN_ne _ 0 (byteLen data - 1) _ [] (by omega),
      getD_replicate_self, List.nil_append] at e2
    have e3 := paraOuter_done2 data (byteLen data - 1) (byteLen data - 2) (by omega)
      (setN (setN (setN (setN (List.replicate (byteLen data) ([] : List MarkdownTagAction))
        0 [pOpenAct (Int.ofNat 0)])
        u.length ([pCloseAct (Int.ofNat u.length)]))
        (u.length + 1) [pOpenAct (Int.ofNat (u.length + 1))])
        (byteLen data - 1) [pCloseAct (Int.ofNat (byteLen data - 1))])
      (setTrueRange (setTrueRange (List.replicate (byteLen data) false) 0 u.length)
        (u.length + 1 + 1 - 1) (byteLen data - (u.length + 1 + 1)))
      (byteLen data - 1 + 1) (by omega)
    exact (e1.trans e2).trans e3
  -- getD facts about the final action queues
  set B4 : List (List MarkdownTagAction) :=
    setN (setN (setN (setN (List.replicate (byteLen data) ([] : List MarkdownTagAction))
      0 [pOpenAct (Int.ofNat 0)])
      u.length ([pCloseAct (Int.ofNat u.length)]))
      (u.length + 1) [pOpenAct (Int.ofNat (u.length + 1))])
      (byteLen data - 1) [pCloseAct (Int.ofNat (byteLen data - 1))] with hB4
  have hlen3 : (setN (setN (setN (List.replicate (byteLen data) ([] : List MarkdownTagAction))
      0 [pOpenAct (Int.ofNat 0)])
      u.length ([pCloseAct (Int.ofNat u.length)]))
      (u.length + 1) [pOpenAct (Int.ofNat (u.length + 1))]).length = byteLen data := by
    simp [length_setN]
  have hB40 : B4.getD 0 [] = [pOpenAct (Int.ofNat 0)] := by
    rw [hB4, getD_setN_ne _ _ _ _ _ (by omega), getD_setN_ne _ _ _ _ _ (by omega),
      getD_setN_ne _ _ _ _ _ (by omega)]
    exact getD_setN_self _ 0 _ [] (by simp only [List.length_replicate]; omega)
  have hB4q1 : ∀ j, 1 ≤ j → j < u.length → B4.getD j [] = [] := by
    intro j hj1 hj2
    rw [hB4, getD_setN_ne _ _ _ _ _ (by omega), getD_setN_ne _ _ _ _ _ (by omega),
      getD_setN_ne _ _ _ _ _ (by omega), getD_setN_ne _ _ _ _ _ (by omega)]
    exact getD_replicate_self _ _ _
  have hB4L : B4.getD u.length [] = [pCloseAct (Int.ofNat u.length)] := by
    rw [hB4, getD_setN_ne _ _ _ _ _ (by omega), getD_setN_ne _ _ _ _ _ (by omega)]
    exact getD_setN_self _ u.length _ []
      (by simp only [length_setN, List.length_replicate]; omega)
  have hB4L1 : B4.getD (u.length + 1) [] = [pOpenAct (Int.ofNat (u.length + 1))] := by
    rw [hB4, getD_setN_ne _ _ _ _ _ (by omega)]
    exact getD_setN_self _ (u.length + 1) _ []
      (by simp only [length_setN, List.length_replicate]; omega)
  have hB4q2 : ∀ j, u.length + 2 ≤ j → j < byteLen data - 1 → B4.getD j [] = [] := by
    intro j hj1 hj2
    rw [hB4, getD_setN_ne _ _ _ _ _ (by omega), getD_setN_ne _ _ _ _ _ (by omega),
      getD_setN_ne _ _ _ _ _ (by omega), getD_setN_ne _ _ _ _ _ (by omega)]
    exact getD_replicate_self _ _ _
  have hB4last : B4.getD (byteLen data - 1) [] = [pCloseAct (Int.ofNat (byteLen data - 1))] := by
    rw [hB4]
    exact getD_setN_self _ (byteLen data - 1) _ []
      (by simp only [length_setN, List.length_replicate]; omega)
  -- decompose the byte enumeration of the document
  have henum : enumBytes data = enumBytesFrom 0 u ++
      ((u.length, '
') :: (u.length + 1, '
') ::
        (enumBytesFrom (u.length + 2) v ++ [(u.length + 2 + v.length, z)])) := by
    show enumBytesFrom 0 (u ++ '
' :: '
' :: (v ++ [z])) = _
    rw [enumBytesFrom_append, Nat.zero_add, byteLen_ascii u hu3]
    congr 1
    simp only [enumBytesFrom]
    rw [show ('
').utf8Size = 1 from rfl]
    rw [show u.length + 1 + 1 = u.length + 2 from rfl]
    congr 2
    rw [enumBytesFrom_append, byteLen_ascii v hv3]
    congr 1
  -- the render pass
  have hrender : renderList data B4 (List.replicate (byteLen data) false) =
      paragraphOpenText.toList ++ u ++ paragraphCloseText.toList ++ '
' ::
        (paragraphOpenText.toList ++ '
' :: (v ++ paragraphCloseText.toList ++ [z])) := by
    unfold renderList
    rw [henum, List.foldl_append, List.foldl_cons, List.foldl_cons, List.foldl_append]
    rw [fold_render_first B4 (byteLen data) u hu3 (pOpenAct (Int.ofNat 0)) hB40
      (fun j hj1 hj2 => hB4q1 j hj1 hj2) hu0]
    rw [emitAt_of_single B4 u.length _ hB4L, skipRep_if]
    rw [emitAt_of_single B4 (u.length + 1) _ hB4L1, skipRep_if]
    rw [fold_render_quiet B4 (byteLen data) v hv3 (u.length + 2) _
      (fun j hj1 hj2 => hB4q2 j hj1 (by omega))]
    rw [List.foldl_cons, List.foldl_nil]
    rw [emitAt_of_single B4 (u.length + 2 + v.length)
      (pCloseAct (Int.ofNat (byteLen data - 1)))
      (by rw [show u.length + 2 + v.length = byteLen data - 1 from by omega]; exact hB4last),
      skipRep_if]
    show _ ++ (pCloseAct (Int.ofNat (byteLen data - 1))).Insertion.toList ++ [z] = _
    simp [pOpenAct, pCloseAct, List.append_assoc]
  -- assemble through the scanner pass (clean: no trigger chars) and render
  have hl : ∀ p ∈ enumBytes data, ¬ badChar p.2 :=
    fun p hp => hdbad p.2 (mem_enumBytesFrom_snd 0 _ hp)
  have htags := applyTagsGo_clean data initTags
    ⟨List.replicate (byteLen data) false, List.replicate (byteLen data) [],
     List.replicate (byteLen data) false⟩ initTags_clean hl
  have hpair : applyTagsGo data initTags
      ⟨List.replicate (byteLen data) false, List.replicate (byteLen data) [],
       List.replicate (byteLen data) false⟩ =
      ((applyTagsGo data initTags
        ⟨List.replicate (byteLen data) false, List.replicate (byteLen data) [],
         List.replicate (byteLen data) false⟩).1,
       .ok ⟨List.replicate (byteLen data) false, List.replicate (byteLen data) [],
            List.replicate (byteLen data) false⟩) := by
    rw [← htags]
  show Except.map String.mk (markdownRunL initTags data).2 = _
  simp only [markdownRunL]
  rw [hpair]
  show Except.ok (String.mk ("<div>".toList ++
    renderList data (markdownApplyParagraphs (List.replicate (byteLen data) [])
      (List.replicate (byteLen data) false) data)
    (List.replicate (byteLen data) false) ++ "</div>".toList)) = _
  rw [hacts, hrender]
  simp [List.append_assoc]

/-- C6 witness: the document `ab\n\ncd` instantiates the amended theorem. -/
theorem markdown_two_runs_paragraphs_witness :
    Markdown (String.mk ("ab".toList ++ '\n' :: '\n' :: ("c".toList ++ ['d']))) =
      .ok (String.mk ("<div>".toList ++ paragraphOpenText.toList ++ "ab".toList ++
        paragraphCloseText.toList ++ '\n' :: (paragraphOpenText.toList ++ '\n' ::
        ("c".toList ++ paragraphCloseText.toList ++ 'd' :: "</div>".toList)))) :=
  markdown_two_runs_paragraphs "ab".toList "c".toList 'd'
    (by decide) (by decide) (by decide) (by decide) (by decide) (by decide)
    (by decide) (by decide) (by decide) (by decide) (by decide)
